import Mathlib

/-!
# Verification of the shake task runner (dependency-graph build engine)

Shallow embedding of the core of the `tani/shake` repository (primary
variant: the module defining `Task`, `File`, `topsort`, `run`, `watch`
with a threaded `State`).  Tasks are identified by natural-number ids
(reference identity in the source becomes id equality here, as the
spec's design notes prescribe).  Timestamps (`Date`) are naturals,
`new Date(0)` is `0`.  The wall clock is an explicit counter that
advances by one at every body execution.  The filesystem consulted by
`fs.stat` is an association list from target paths to mtimes; a body's
external effect on it is a parameter of the environment.  Exceptions
become explicit error results; the recursion of `topsort`'s `visit` is
made structural with a fuel parameter, whose sufficiency is proved.
-/

namespace Shake

/-- A task is either a plain `Task` (always runs its body) or a `File`
task bound to a target path (staleness-tracked). -/
inductive TaskKind where
  | task : TaskKind
  | file : Nat → TaskKind
deriving DecidableEq, Repr

/-- One node of the dependency graph: its kind and the ids of its
dependencies (`this.deps` in the source). -/
structure TaskDef where
  kind : TaskKind
  deps : List Nat
deriving DecidableEq, Repr

/-- The task graph: task id `i` denotes `tasks[i]`. -/
structure Graph where
  tasks : List TaskDef
deriving DecidableEq, Repr

/-- Look up a task definition; ids outside the graph denote an inert
task with no dependencies (they never arise for well-formed calls). -/
def taskDef (g : Graph) (t : Nat) : TaskDef :=
  (g.tasks[t]?).getD ⟨TaskKind.task, []⟩

/-- `task.deps` of the source. -/
def depsOf (g : Graph) (t : Nat) : List Nat :=
  (taskDef g t).deps

/-- Well-formed graph: every dependency id points into the graph. -/
def WFG (g : Graph) : Prop :=
  ∀ td ∈ g.tasks, ∀ d ∈ td.deps, d < g.tasks.length

instance (g : Graph) : Decidable (WFG g) := by
  unfold WFG; infer_instance

/-- The dependency edge relation: `edge g a b` holds when task `a`
lists task `b` as a dependency. -/
def edge (g : Graph) (a b : Nat) : Prop := b ∈ depsOf g a

instance (g : Graph) (a b : Nat) : Decidable (edge g a b) := by
  unfold edge; infer_instance

/-! ## The graph linearizer (`topsort`) -/

/-- Errors of the linearization phase.  `cyclic` is the
`Error("cyclic dependency")` thrown by `visit`; `fuel` is an artifact
of the fueled embedding and is proved unreachable for sufficient fuel. -/
inductive TopErr where
  | cyclic : TopErr
  | fuel : TopErr
deriving DecidableEq

/-- State of the topological sort: the `visited` set and the `sorted`
output, both kept as lists in insertion order. -/
abbrev TopState := List Nat × List Nat

/-- The recursive `visit` of `topsort`, lifted to a list of tasks to be
visited in order with a common `path` (the source's loop over
`task.deps`, and the top-level loop over the requested roots).  For a
single task `t` it performs, exactly as the source:
`if (path.includes(task)) throw cyclic; if (visited.has(task)) return;`
then visits the dependencies with `path.concat(task)` after adding `t`
to `visited`, and finally pushes `t` onto `sorted`.  Fuel decreases at
every call so that the recursion is structural. -/
def visitList (g : Graph) : Nat → List Nat → List Nat → TopState → Except TopErr TopState
  | 0, _, _, _ => Except.error TopErr.fuel
  | _ + 1, [], _, st => Except.ok st
  | fuel + 1, t :: ts, path, (v, s) =>
    if t ∈ path then Except.error TopErr.cyclic
    else if t ∈ v then visitList g fuel ts path (v, s)
    else
      match visitList g fuel (depsOf g t) (path ++ [t]) (v ++ [t], s) with
      | Except.error e => Except.error e
      | Except.ok (v2, s2) => visitList g fuel ts path (v2, s2 ++ [t])

/-- Fuel spent (at worst) on opening one task: one step for the task
itself, one per dependency list cell, one slack step. -/
def nodeCost (g : Graph) (t : Nat) : Nat := (depsOf g t).length + 2

/-- A fuel budget sufficient for `visitList` on the whole graph, proved
adequate below. -/
def fuelBound (g : Graph) (roots : List Nat) : Nat :=
  (((List.range g.tasks.length ++ roots).dedup).map (nodeCost g)).sum +
    roots.length + 1

/-- `topsort(tasks)` of the source: visit each requested root with an
empty path, returning the accumulated `sorted` list. -/
def topsort (g : Graph) (roots : List Nat) (fuel : Nat) : Except TopErr (List Nat) :=
  match visitList g fuel roots [] ([], []) with
  | Except.error e => Except.error e
  | Except.ok (_, s) => Except.ok s

/-! ## Execution (`Task.run`, `File.run`, `run`) -/

/-- A `Status` record: the task it belongs to and its recorded mtime
(`{ task, mtime }` in the source). -/
structure Status where
  task : Nat
  mtime : Nat
deriving DecidableEq, Repr

/-- `State = Status[]`: the ordered run history. -/
abbrev State := List Status

/-- The filesystem metadata provider: an association list from target
paths to mtimes; absent paths are reported as not found. -/
abbrev FS := List (Nat × Nat)

/-- `fs.stat(target).mtime`, with the source's `?? new Date(0)` and
`NotFoundError ↦ new Date(0)` collapses: absent or null mtimes are the
epoch `0`. -/
def statTime (fs : FS) (p : Nat) : Nat :=
  match fs.find? (fun e => e.1 == p) with
  | some e => e.2
  | none => 0

/-- Record a write of path `p` at time `τ` (new entry shadows old). -/
def setTime (fs : FS) (p : Nat) (τ : Nat) : FS := (p, τ) :: fs

/-- The run environment: whether each task's opaque body throws, the
error value it throws, and the body's effect on the filesystem when it
succeeds (invoked with the task id and the current clock). -/
structure Env where
  bodyFails : Nat → Bool
  bodyErr : Nat → Nat
  bodyEff : Nat → Nat → FS → FS

/-- Errors escaping `run`: the cyclic-dependency error thrown by
`topsort`, the fuel artifact, or an error raised by a task body. -/
inductive RunErr where
  | cyclic : RunErr
  | fuel : RunErr
  | raised : Nat → RunErr
deriving DecidableEq, Repr

/-- The execution state threaded through a run: the `state` history,
the filesystem, the wall clock, and the log of tasks whose body was
invoked (the body-call log; it is not part of the program's data, it
records the side channel the claims speak about). -/
structure ExSt where
  state : State
  fs : FS
  clock : Nat
  log : List Nat
deriving DecidableEq, Repr

/-- Invoke the body of task `t`: always logged; on failure the body's
error is raised; on success the body's filesystem effect is applied
and the clock advances. -/
def invokeBody (env : Env) (t : Nat) (st : ExSt) : ExSt × Option RunErr :=
  if env.bodyFails t then
    ({ st with log := st.log ++ [t] }, some (RunErr.raised (env.bodyErr t)))
  else
    ({ st with fs := env.bodyEff t st.clock st.fs, clock := st.clock + 1,
               log := st.log ++ [t] }, none)

/-- The maximum mtime among the statuses of the given dependencies in
`state` (`0` when none): the spec's `depsTime`. -/
def depsTime (state : State) (deps : List Nat) : Nat :=
  state.foldl (fun acc s => if s.task ∈ deps then max acc s.mtime else acc) 0

/-- One task's `run(state)`.
* `Task.run`: `await this.#body(); return state.concat(status(this, new Date()))`.
* `File.run`: read the target's mtime (absent ↦ epoch); if some entry
  of `state` belongs to a dependency and is strictly newer, run the
  body once and record `new Date()`; otherwise record the existing
  mtime; append the status. -/
def runStep (env : Env) (g : Graph) (t : Nat) (st : ExSt) : ExSt × Option RunErr :=
  match (taskDef g t).kind with
  | TaskKind.task =>
    match invokeBody env t st with
    | (st1, some e) => (st1, some e)
    | (st1, none) => ({ st1 with state := st.state ++ [⟨t, st.clock⟩] }, none)
  | TaskKind.file p =>
    let m := statTime st.fs p
    if st.state.any (fun s => decide (s.task ∈ (taskDef g t).deps) && decide (m < s.mtime)) then
      match invokeBody env t st with
      | (st1, some e) => (st1, some e)
      | (st1, none) => ({ st1 with state := st.state ++ [⟨t, st.clock⟩] }, none)
    else
      ({ st with state := st.state ++ [⟨t, m⟩] }, none)

/-- Execute the linearized tasks in order, stopping at the first
raised error (`state = await task.run(state)` in a loop; a thrown
error aborts the loop). -/
def execList (env : Env) (g : Graph) : List Nat → ExSt → ExSt × Option RunErr
  | [], st => (st, none)
  | t :: ts, st =>
    match runStep env g t st with
    | (st', none) => execList env g ts st'
    | (st', some e) => (st', some e)

/-- `run(...tasks)`: linearize first (throwing the cyclic error before
any execution), then execute in order from an empty `state`. -/
def run (env : Env) (g : Graph) (roots : List Nat) (fs0 : FS) (c0 : Nat) :
    ExSt × Option RunErr :=
  match topsort g roots (fuelBound g roots) with
  | Except.error TopErr.cyclic => (⟨[], fs0, c0, []⟩, some RunErr.cyclic)
  | Except.error TopErr.fuel => (⟨[], fs0, c0, []⟩, some RunErr.fuel)
  | Except.ok sorted => execList env g sorted ⟨[], fs0, c0, []⟩

/-- The watch loop over a stream of change events (modelled by the
number of pending events): each event triggers one full `run`; an
error escaping `run` escapes the loop (the source has no handler
around `await run(...tasks)`).  Returns how many events were handled
(a handled event is one whose `run` was started) and the first
escaping error, if any. -/
def watch (env : Env) (g : Graph) (roots : List Nat) :
    Nat → FS → Nat → Nat → Nat × Option RunErr
  | 0, _, _, handled => (handled, none)
  | k + 1, fs, c, handled =>
    match run env g roots fs c with
    | (st, none) => watch env g roots k st.fs st.clock (handled + 1)
    | (_, some e) => (handled + 1, some e)

/-! ## Linearizer: equations and basic monotonicity -/

theorem visitList_zero (g : Graph) (ts path : List Nat) (st : TopState) :
    visitList g 0 ts path st = Except.error TopErr.fuel := rfl

theorem visitList_nil (g : Graph) (fuel : Nat) (path : List Nat) (st : TopState) :
    visitList g (fuel + 1) [] path st = Except.ok st := rfl

theorem visitList_cons (g : Graph) (fuel t : Nat) (ts path v s) :
    visitList g (fuel + 1) (t :: ts) path (v, s) =
      (if t ∈ path then Except.error TopErr.cyclic
      else if t ∈ v then visitList g fuel ts path (v, s)
      else
        match visitList g fuel (depsOf g t) (path ++ [t]) (v ++ [t], s) with
        | Except.error e => Except.error e
        | Except.ok (v2, s2) => visitList g fuel ts path (v2, s2 ++ [t])) := rfl

/-- The visited set only grows. -/
theorem visitList_mono (g : Graph) : ∀ fuel ts path v s v' s',
    visitList g fuel ts path (v, s) = Except.ok (v', s') → ∀ x ∈ v, x ∈ v' := by
  intro fuel
  induction fuel with
  | zero =>
    intro ts path v s v' s' h
    rw [visitList_zero] at h
    cases h
  | succ fuel ih =>
    intro ts path v s v' s' h
    cases ts with
    | nil =>
      rw [visitList_nil] at h
      cases h
      exact fun x hx => hx
    | cons t ts =>
      rw [visitList_cons] at h
      by_cases h1 : t ∈ path
      · rw [if_pos h1] at h; cases h
      · rw [if_neg h1] at h
        by_cases h2 : t ∈ v
        · rw [if_pos h2] at h
          exact ih ts path v s v' s' h
        · rw [if_neg h2] at h
          cases hin : visitList g fuel (depsOf g t) (path ++ [t]) (v ++ [t], s) with
          | error e => rw [hin] at h; cases h
          | ok st2 =>
            obtain ⟨v2, s2⟩ := st2
            rw [hin] at h
            intro x hx
            have hx1 : x ∈ v ++ [t] := List.mem_append.2 (Or.inl hx)
            have hx2 := ih _ _ _ _ _ _ hin x hx1
            exact ih _ _ _ _ _ _ h x hx2

/-! ## Dependency-closed output lists -/

/-- `DepClosed g s`: each element of `s` is preceded by all of its
dependencies — the defining property of a topological order. -/
inductive DepClosed (g : Graph) : List Nat → Prop where
  | nil : DepClosed g []
  | snoc : ∀ {s : List Nat} {t : Nat}, DepClosed g s →
      (∀ d ∈ depsOf g t, d ∈ s) → DepClosed g (s ++ [t])

/-- Members of a dep-closed list have all their dependencies in it. -/
theorem DepClosed.mem_deps {g : Graph} {s : List Nat} (h : DepClosed g s) :
    ∀ t ∈ s, ∀ d ∈ depsOf g t, d ∈ s := by
  induction h with
  | nil => intro t ht; cases ht
  | snoc hs hd ih =>
    intro t ht d hdep
    rcases List.mem_append.1 ht with ht | ht
    · exact List.mem_append.2 (Or.inl (ih t ht d hdep))
    · rcases List.mem_singleton.1 ht with rfl
      exact List.mem_append.2 (Or.inl (hd d hdep))

/-- In a dep-closed list, the dependencies of an element occur strictly
before it. -/
theorem DepClosed.split {g : Graph} {s : List Nat} (h : DepClosed g s) :
    ∀ l1 t l2, s = l1 ++ t :: l2 → ∀ d ∈ depsOf g t, d ∈ l1 := by
  induction h with
  | nil =>
    intro l1 t l2 he
    exact absurd (congrArg List.length he) (by simp; omega)
  | @snoc s x hs hd ih =>
    intro l1 t l2 he d hdep
    rcases List.eq_nil_or_concat l2 with rfl | ⟨l2', y, rfl⟩
    · have hlen : s.length = l1.length := by
        have := congrArg List.length he; simp at this; omega
      obtain ⟨rfl, hx⟩ := List.append_inj he (by omega)
      rcases List.cons.injEq .. ▸ hx with ⟨rfl, -⟩
      exact hd d hdep
    · have he' : s ++ [x] = (l1 ++ t :: l2') ++ [y] := by
        simpa using he
      obtain ⟨rfl, hx⟩ := List.append_inj' he' rfl
      exact ih l1 t l2' rfl d hdep

/-- A dep-closed list is closed under reachability along dependency
edges. -/
theorem DepClosed.reach_mem {g : Graph} {s : List Nat} (h : DepClosed g s)
    {t u : Nat} (ht : t ∈ s) (hr : Relation.ReflTransGen (edge g) t u) : u ∈ s := by
  induction hr with
  | refl => exact ht
  | tail _ hmu ih => exact h.mem_deps _ ih _ hmu

/-- No element of a dep-closed list lies on a dependency cycle. -/
theorem DepClosed.no_cycle {g : Graph} {s : List Nat} (h : DepClosed g s) :
    ∀ t ∈ s, ¬ Relation.TransGen (edge g) t t := by
  induction h with
  | nil => intro t ht; cases ht
  | @snoc s x hs hd ih =>
    intro t ht hcyc
    rcases List.mem_append.1 ht with ht | ht
    · exact ih t ht hcyc
    · rcases List.mem_singleton.1 ht with rfl
      by_cases hx : t ∈ s
      · exact ih t hx hcyc
      · rcases Relation.TransGen.head'_iff.1 hcyc with ⟨c, h1, h2⟩
        exact hx (hs.reach_mem (hd c h1) h2)

/-! ## The main DFS invariant of `visitList` -/

/-- The invariant tying `visited`, `sorted` and the active recursion
path: `visited` is exactly `sorted` plus the active path, the sorted
output is disjoint from the path, has no duplicates, and is
dependency-closed. -/
structure TInv (g : Graph) (path v s : List Nat) : Prop where
  mem : ∀ x, x ∈ v ↔ x ∈ s ∨ x ∈ path
  dis : ∀ x ∈ s, x ∉ path
  nd : s.Nodup
  dc : DepClosed g s

/-- Preservation of `TInv` along successful visits, together with: the
visited set grows, sorted output grows by appending, and every task in
the list ends up visited (hence sorted, when off the path). -/
theorem visitList_inv (g : Graph) : ∀ fuel ts path v s v' s',
    visitList g fuel ts path (v, s) = Except.ok (v', s') → TInv g path v s →
    TInv g path v' s' ∧ (∀ x ∈ v, x ∈ v') ∧ (∃ a, s' = s ++ a) ∧
      ∀ t ∈ ts, t ∈ v' ∧ t ∉ path := by
  intro fuel
  induction fuel with
  | zero =>
    intro ts path v s v' s' h
    rw [visitList_zero] at h
    cases h
  | succ fuel ih =>
    intro ts path v s v' s' h hinv
    cases ts with
    | nil =>
      rw [visitList_nil] at h
      cases h
      exact ⟨hinv, fun x hx => hx, ⟨[], by simp⟩, fun t ht => absurd ht (List.not_mem_nil t)⟩
    | cons t ts =>
      rw [visitList_cons] at h
      by_cases h1 : t ∈ path
      · rw [if_pos h1] at h; cases h
      · rw [if_neg h1] at h
        by_cases h2 : t ∈ v
        · rw [if_pos h2] at h
          obtain ⟨hinv', hv, hs, hts⟩ := ih ts path v s v' s' h hinv
          exact ⟨hinv', hv, hs, fun u hu => by
            rcases List.mem_cons.1 hu with rfl | hu
            · exact ⟨hv u h2, h1⟩
            · exact hts u hu⟩
        · rw [if_neg h2] at h
          cases hin : visitList g fuel (depsOf g t) (path ++ [t]) (v ++ [t], s) with
          | error e => rw [hin] at h; cases h
          | ok st2 =>
            obtain ⟨v2, s2⟩ := st2
            rw [hin] at h
            have hinv1 : TInv g (path ++ [t]) (v ++ [t]) s := by
              refine ⟨fun x => ?_, fun x hx => ?_, hinv.nd, hinv.dc⟩
              · simp only [List.mem_append, List.mem_singleton, hinv.mem]
                tauto
              · have hxv : x ∈ v := (hinv.mem x).2 (Or.inl hx)
                have hxp := hinv.dis x hx
                simp only [List.mem_append, List.mem_singleton]
                rintro (hc | rfl)
                · exact hxp hc
                · exact h2 hxv
            obtain ⟨hinv2, hv2, ⟨a2, rfl⟩, hdeps⟩ :=
              ih (depsOf g t) (path ++ [t]) (v ++ [t]) s v2 _ hin hinv1
            have htv2 : t ∈ v2 := hv2 t (List.mem_append.2 (Or.inr (List.mem_singleton.2 rfl)))
            have hts2 : t ∉ s ++ a2 := fun hc =>
              hinv2.dis t hc (List.mem_append.2 (Or.inr (List.mem_singleton.2 rfl)))
            have hdepss : ∀ d ∈ depsOf g t, d ∈ s ++ a2 := by
              intro d hd
              obtain ⟨hdv, hdp⟩ := hdeps d hd
              rcases (hinv2.mem d).1 hdv with hds | hdp'
              · exact hds
              · exact absurd hdp' hdp
            have hinv3 : TInv g path v2 ((s ++ a2) ++ [t]) := by
              refine ⟨fun x => ?_, fun x hx => ?_, ?_, DepClosed.snoc hinv2.dc hdepss⟩
              · rw [hinv2.mem x]
                simp only [List.mem_append, List.mem_singleton]
                tauto
              · rcases List.mem_append.1 hx with hx | hx
                · intro hc
                  exact hinv2.dis x hx (List.mem_append.2 (Or.inl hc))
                · rcases List.mem_singleton.1 hx with rfl
                  exact h1
              · exact List.Nodup.append hinv2.nd (List.nodup_singleton t)
                  (by intro x hx hx'; rcases List.mem_singleton.1 hx' with rfl; exact hts2 hx)
            obtain ⟨hinv', hv', ⟨a3, rfl⟩, hts⟩ := ih ts path v2 _ v' _ h hinv3
            refine ⟨hinv', ?_, ?_, ?_⟩
            · intro x hx
              exact hv' x (hv2 x (List.mem_append.2 (Or.inl hx)))
            · exact ⟨a2 ++ [t] ++ a3, by simp⟩
            · intro u hu
              rcases List.mem_cons.1 hu with rfl | hu
              · exact ⟨hv' u htv2, h1⟩
              · exact hts u hu

/-- What a successful `topsort` guarantees: the output has no
duplicates, is dependency-closed, and contains every requested root. -/
theorem topsort_ok {g : Graph} {roots : List Nat} {fuel : Nat} {sorted : List Nat}
    (h : topsort g roots fuel = Except.ok sorted) :
    sorted.Nodup ∧ DepClosed g sorted ∧ ∀ r ∈ roots, r ∈ sorted := by
  unfold topsort at h
  cases hv : visitList g fuel roots [] ([], []) with
  | error e => rw [hv] at h; cases h
  | ok st =>
    obtain ⟨v', s'⟩ := st
    rw [hv] at h
    cases h
    have hinv0 : TInv g [] [] [] :=
      ⟨by simp, by simp, List.nodup_nil, DepClosed.nil⟩
    obtain ⟨hinv, -, -, hroots⟩ := visitList_inv g fuel roots [] [] [] _ _ hv hinv0
    refine ⟨hinv.nd, hinv.dc, fun r hr => ?_⟩
    obtain ⟨hrv, -⟩ := hroots r hr
    rcases (hinv.mem r).1 hrv with hs | hp
    · exact hs
    · cases hp

/-! ## Completeness and soundness of cycle reporting -/

/-- Some requested root reaches a task that lies on a dependency
cycle. -/
def ReachCycle (g : Graph) (roots : List Nat) : Prop :=
  ∃ r ∈ roots, ∃ c, Relation.ReflTransGen (edge g) r c ∧ Relation.TransGen (edge g) c c

/-- If `visitList` reports a cycle then there really is one: every
element of the active path strictly reaches every pending task, so
hitting a path element closes a genuine cycle. -/
theorem visitList_cyclic (g : Graph) (R : Nat → Prop)
    (hR : ∀ x, R x → ∀ d ∈ depsOf g x, R d) :
    ∀ fuel ts path v s, (∀ t ∈ ts, R t) →
      (∀ x ∈ path, ∀ t ∈ ts, Relation.TransGen (edge g) x t) →
      visitList g fuel ts path (v, s) = Except.error TopErr.cyclic →
      ∃ c, R c ∧ Relation.TransGen (edge g) c c := by
  intro fuel
  induction fuel with
  | zero =>
    intro ts path v s _ _ h
    rw [visitList_zero] at h
    simp at h
  | succ fuel ih =>
    intro ts path v s hts hpath h
    cases ts with
    | nil => rw [visitList_nil] at h; cases h
    | cons t ts =>
      rw [visitList_cons] at h
      by_cases h1 : t ∈ path
      · exact ⟨t, hts t (List.mem_cons_self t ts),
          hpath t h1 t (List.mem_cons_self t ts)⟩
      · rw [if_neg h1] at h
        by_cases h2 : t ∈ v
        · rw [if_pos h2] at h
          exact ih ts path v s (fun u hu => hts u (List.mem_cons_of_mem t hu))
            (fun x hx u hu => hpath x hx u (List.mem_cons_of_mem t hu)) h
        · rw [if_neg h2] at h
          have hRt : R t := hts t (List.mem_cons_self t ts)
          cases hin : visitList g fuel (depsOf g t) (path ++ [t]) (v ++ [t], s) with
          | error e =>
            rw [hin] at h
            have he : e = TopErr.cyclic := by injection h
            rw [he] at hin
            refine ih (depsOf g t) (path ++ [t]) (v ++ [t]) s (hR t hRt) ?_ hin
            intro x hx d hd
            rcases List.mem_append.1 hx with hx | hx
            · exact (hpath x hx t (List.mem_cons_self t ts)).tail hd
            · rcases List.mem_singleton.1 hx with rfl
              exact Relation.TransGen.single hd
          | ok st2 =>
            obtain ⟨v2, s2⟩ := st2
            rw [hin] at h
            exact ih ts path v2 (s2 ++ [t])
              (fun u hu => hts u (List.mem_cons_of_mem t hu))
              (fun x hx u hu => hpath x hx u (List.mem_cons_of_mem t hu)) h

/-- A cyclic-dependency error from `topsort` certifies a dependency
cycle reachable from the requested roots. -/
theorem topsort_cyclic {g : Graph} {roots : List Nat} {fuel : Nat}
    (h : topsort g roots fuel = Except.error TopErr.cyclic) : ReachCycle g roots := by
  unfold topsort at h
  cases hv : visitList g fuel roots [] ([], []) with
  | error e =>
    rw [hv] at h
    have he : e = TopErr.cyclic := by injection h
    rw [he] at hv
    have := visitList_cyclic g
      (fun x => ∃ r ∈ roots, Relation.ReflTransGen (edge g) r x)
      (fun x hx d hd => by
        obtain ⟨r, hr, hrx⟩ := hx
        exact ⟨r, hr, hrx.tail hd⟩)
      fuel roots [] [] []
      (fun t ht => ⟨t, ht, Relation.ReflTransGen.refl⟩)
      (fun x hx => absurd hx (List.not_mem_nil x)) hv
    obtain ⟨c, ⟨r, hr, hrc⟩, hcyc⟩ := this
    exact ⟨r, hr, c, hrc, hcyc⟩
  | ok st => rw [hv] at h; cases h

/-- A successful `topsort` certifies that no cycle is reachable from
the requested roots. -/
theorem topsort_acyclic {g : Graph} {roots : List Nat} {fuel : Nat} {sorted : List Nat}
    (h : topsort g roots fuel = Except.ok sorted) : ¬ ReachCycle g roots := by
  obtain ⟨nd, dc, hroots⟩ := topsort_ok h
  rintro ⟨r, hr, c, hrc, hcyc⟩
  exact dc.no_cycle c (dc.reach_mem (hroots r hr) hrc) hcyc

/-! ## Fuel sufficiency: the fueled linearizer never runs out -/

/-- The fuel required to process `ts` given visited set `v`, relative
to a universe `S` of tasks. -/
def fuelNeed (g : Graph) (S ts v : List Nat) : Nat :=
  ts.length + 1 + ((S.filter (fun x => decide (x ∉ v))).map (nodeCost g)).sum

theorem filter_out_eq (g : Graph) (v : List Nat) (t : Nat) :
    ∀ S : List Nat, t ∉ S →
      ((S.filter (fun x => decide (x ∉ v ++ [t]))).map (nodeCost g)).sum =
        ((S.filter (fun x => decide (x ∉ v))).map (nodeCost g)).sum := by
  intro S hS
  have hfe : S.filter (fun x => decide (x ∉ v ++ [t])) =
      S.filter (fun x => decide (x ∉ v)) := by
    apply List.filter_congr
    intro x hx
    have hxt : x ≠ t := fun hc => hS (hc ▸ hx)
    simp [List.mem_append, hxt]
  rw [hfe]

/-- Visiting a fresh task `t` removes exactly its cost from the
remaining budget. -/
theorem sum_drop (g : Graph) (v : List Nat) (t : Nat) (hv : t ∉ v) :
    ∀ S : List Nat, S.Nodup → t ∈ S →
      ((S.filter (fun x => decide (x ∉ v ++ [t]))).map (nodeCost g)).sum + nodeCost g t =
        ((S.filter (fun x => decide (x ∉ v))).map (nodeCost g)).sum := by
  intro S
  induction S with
  | nil => intro _ h; cases h
  | cons y S ih =>
    intro hnd hmem
    have hndS : S.Nodup := (List.nodup_cons.1 hnd).2
    have hyS : y ∉ S := (List.nodup_cons.1 hnd).1
    rcases List.mem_cons.1 hmem with rfl | hmem
    · rw [List.filter_cons, List.filter_cons,
        if_neg (by simp : ¬ (decide (t ∉ v ++ [t]) = true)),
        if_pos (by simpa using hv : decide (t ∉ v) = true),
        filter_out_eq g v t S hyS, List.map_cons, List.sum_cons]
      omega
    · have hyt : y ≠ t := fun hc => hyS (hc ▸ hmem)
      rw [List.filter_cons, List.filter_cons]
      by_cases hyv : y ∈ v
      · rw [if_neg (by simp [List.mem_append, hyv] :
            ¬ (decide (y ∉ v ++ [t]) = true)),
          if_neg (by simp [hyv] : ¬ (decide (y ∉ v) = true))]
        exact ih hndS hmem
      · rw [if_pos (by simp [List.mem_append, hyv, hyt] :
            decide (y ∉ v ++ [t]) = true),
          if_pos (by simpa using hyv : decide (y ∉ v) = true),
          List.map_cons, List.sum_cons, List.map_cons, List.sum_cons]
        have := ih hndS hmem
        omega

/-- Growing the visited set never increases the remaining budget. -/
theorem sum_mono (g : Graph) (v v' : List Nat) (hv : ∀ x ∈ v, x ∈ v') :
    ∀ S : List Nat,
      ((S.filter (fun x => decide (x ∉ v'))).map (nodeCost g)).sum ≤
        ((S.filter (fun x => decide (x ∉ v))).map (nodeCost g)).sum := by
  intro S
  induction S with
  | nil => simp
  | cons y S ih =>
    rw [List.filter_cons, List.filter_cons]
    by_cases hy : y ∈ v
    · rw [if_neg (by simp [hv y hy] : ¬ (decide (y ∉ v') = true)),
        if_neg (by simp [hy] : ¬ (decide (y ∉ v) = true))]
      exact ih
    · by_cases hy' : y ∈ v'
      · rw [if_neg (by simp [hy'] : ¬ (decide (y ∉ v') = true)),
          if_pos (by simpa using hy : decide (y ∉ v) = true),
          List.map_cons, List.sum_cons]
        omega
      · rw [if_pos (by simpa using hy' : decide (y ∉ v') = true),
          if_pos (by simpa using hy : decide (y ∉ v) = true),
          List.map_cons, List.sum_cons, List.map_cons, List.sum_cons]
        omega

/-- With enough fuel, `visitList` never reports fuel exhaustion. -/
theorem visitList_fuel (g : Graph) (S : List Nat) (hnd : S.Nodup)
    (hS : ∀ x ∈ S, ∀ d ∈ depsOf g x, d ∈ S) :
    ∀ fuel ts path v s, (∀ t ∈ ts, t ∈ S) → fuelNeed g S ts v ≤ fuel →
      visitList g fuel ts path (v, s) ≠ Except.error TopErr.fuel := by
  intro fuel
  induction fuel with
  | zero =>
    intro ts path v s _ hle
    unfold fuelNeed at hle
    omega
  | succ fuel ih =>
    intro ts path v s hts hle
    cases ts with
    | nil => rw [visitList_nil]; simp
    | cons t ts =>
      rw [visitList_cons]
      by_cases h1 : t ∈ path
      · rw [if_pos h1]; simp
      · rw [if_neg h1]
        by_cases h2 : t ∈ v
        · rw [if_pos h2]
          refine ih ts path v s (fun u hu => hts u (List.mem_cons_of_mem t hu)) ?_
          unfold fuelNeed at hle ⊢
          rw [List.length_cons] at hle
          omega
        · rw [if_neg h2]
          have htS : t ∈ S := hts t (List.mem_cons_self t ts)
          have hdrop := sum_drop g v t h2 S hnd htS
          have hcost : nodeCost g t = (depsOf g t).length + 2 := rfl
          cases hin : visitList g fuel (depsOf g t) (path ++ [t]) (v ++ [t], s) with
          | error e =>
            cases e with
            | cyclic => simp
            | fuel =>
              exfalso
              refine ih (depsOf g t) (path ++ [t]) (v ++ [t]) s (hS t htS) ?_ hin
              unfold fuelNeed at hle ⊢
              rw [List.length_cons] at hle
              omega
          | ok st2 =>
            obtain ⟨v2, s2⟩ := st2
            have hmono : ∀ x ∈ v ++ [t], x ∈ v2 := visitList_mono g fuel _ _ _ _ _ _ hin
            have hsum := sum_mono g (v ++ [t]) v2 hmono S
            refine ih ts path v2 (s2 ++ [t]) (fun u hu => hts u (List.mem_cons_of_mem t hu)) ?_
            unfold fuelNeed at hle ⊢
            rw [List.length_cons] at hle
            omega

/-- With the budget `fuelBound`, `topsort` on a well-formed graph never
reports fuel exhaustion. -/
theorem topsort_no_fuel (g : Graph) (roots : List Nat) (hwf : WFG g) :
    topsort g roots (fuelBound g roots) ≠ Except.error TopErr.fuel := by
  have hnd : ((List.range g.tasks.length ++ roots).dedup).Nodup := List.nodup_dedup _
  have hroots : ∀ t ∈ roots, t ∈ (List.range g.tasks.length ++ roots).dedup := by
    intro t ht
    rw [List.mem_dedup]
    exact List.mem_append.2 (Or.inr ht)
  have hS : ∀ x ∈ (List.range g.tasks.length ++ roots).dedup,
      ∀ d ∈ depsOf g x, d ∈ (List.range g.tasks.length ++ roots).dedup := by
    intro x _ d hd
    rw [List.mem_dedup]
    refine List.mem_append.2 (Or.inl ?_)
    rw [List.mem_range]
    by_cases hlt : x < g.tasks.length
    · unfold depsOf taskDef at hd
      rw [List.getElem?_eq_getElem hlt] at hd
      exact hwf _ (List.getElem_mem hlt) d hd
    · unfold depsOf taskDef at hd
      rw [List.getElem?_eq_none (Nat.le_of_not_lt hlt)] at hd
      cases hd
  have hneed : fuelNeed g ((List.range g.tasks.length ++ roots).dedup) roots [] ≤
      fuelBound g roots := by
    unfold fuelNeed fuelBound
    have hfe : ((List.range g.tasks.length ++ roots).dedup).filter
        (fun x => decide (x ∉ ([] : List Nat))) =
        (List.range g.tasks.length ++ roots).dedup :=
      List.filter_eq_self.2 (by simp)
    rw [hfe]
    omega
  have := visitList_fuel g _ hnd hS (fuelBound g roots) roots [] [] [] hroots hneed
  unfold topsort
  cases hv : visitList g (fuelBound g roots) roots [] ([], []) with
  | error e =>
    cases e with
    | cyclic => simp
    | fuel => exact absurd hv this
  | ok st => obtain ⟨v, s⟩ := st; simp

/-! ## Execution: case lemmas for one `run(state)` step -/

/-- The staleness test of `File.run` as the source performs it. -/
def staleAny (g : Graph) (t : Nat) (st : ExSt) (p : Nat) : Bool :=
  st.state.any (fun s => decide (s.task ∈ (taskDef g t).deps) &&
    decide (statTime st.fs p < s.mtime))

theorem runStep_task_ok {env : Env} {g : Graph} {t : Nat} {st : ExSt}
    (hk : (taskDef g t).kind = TaskKind.task) (hnf : env.bodyFails t = false) :
    runStep env g t st =
      (⟨st.state ++ [⟨t, st.clock⟩], env.bodyEff t st.clock st.fs,
        st.clock + 1, st.log ++ [t]⟩, none) := by
  unfold runStep invokeBody
  rw [hk]
  simp [hnf]

theorem runStep_task_fail {env : Env} {g : Graph} {t : Nat} {st : ExSt}
    (hk : (taskDef g t).kind = TaskKind.task) (hf : env.bodyFails t = true) :
    runStep env g t st =
      ({ st with log := st.log ++ [t] }, some (RunErr.raised (env.bodyErr t))) := by
  unfold runStep invokeBody
  rw [hk]
  simp [hf]

theorem runStep_file_skip {env : Env} {g : Graph} {t p : Nat} {st : ExSt}
    (hk : (taskDef g t).kind = TaskKind.file p) (hany : staleAny g t st p = false) :
    runStep env g t st =
      ({ st with state := st.state ++ [⟨t, statTime st.fs p⟩] }, none) := by
  unfold runStep invokeBody
  rw [hk]
  unfold staleAny at hany
  simp only [hany, if_false, Bool.false_eq_true]

theorem runStep_file_run {env : Env} {g : Graph} {t p : Nat} {st : ExSt}
    (hk : (taskDef g t).kind = TaskKind.file p) (hany : staleAny g t st p = true)
    (hnf : env.bodyFails t = false) :
    runStep env g t st =
      (⟨st.state ++ [⟨t, st.clock⟩], env.bodyEff t st.clock st.fs,
        st.clock + 1, st.log ++ [t]⟩, none) := by
  unfold runStep invokeBody
  rw [hk]
  unfold staleAny at hany
  simp [hany, hnf]

theorem runStep_file_fail {env : Env} {g : Graph} {t p : Nat} {st : ExSt}
    (hk : (taskDef g t).kind = TaskKind.file p) (hany : staleAny g t st p = true)
    (hf : env.bodyFails t = true) :
    runStep env g t st =
      ({ st with log := st.log ++ [t] }, some (RunErr.raised (env.bodyErr t))) := by
  unfold runStep invokeBody
  rw [hk]
  unfold staleAny at hany
  simp [hany, hf]

/-- Each step appends either nothing or exactly its own task id to the
body-call log. -/
theorem runStep_log (env : Env) (g : Graph) (t : Nat) (st : ExSt) :
    (runStep env g t st).1.log = st.log ∨ (runStep env g t st).1.log = st.log ++ [t] := by
  cases hk : (taskDef g t).kind with
  | task =>
    cases hnf : env.bodyFails t with
    | false => rw [runStep_task_ok hk hnf]; exact Or.inr rfl
    | true => rw [runStep_task_fail hk hnf]; exact Or.inr rfl
  | file p =>
    cases hany : staleAny g t st p with
    | false => rw [runStep_file_skip hk hany]; exact Or.inl rfl
    | true =>
      cases hnf : env.bodyFails t with
      | false => rw [runStep_file_run hk hany hnf]; exact Or.inr rfl
      | true => rw [runStep_file_fail hk hany hnf]; exact Or.inr rfl

/-- A successful step appends exactly one status, owned by the stepped
task. -/
theorem runStep_state_ok {env : Env} {g : Graph} {t : Nat} {st st' : ExSt}
    (h : runStep env g t st = (st', none)) :
    ∃ m, st'.state = st.state ++ [⟨t, m⟩] := by
  cases hk : (taskDef g t).kind with
  | task =>
    cases hnf : env.bodyFails t with
    | false =>
      rw [runStep_task_ok hk hnf, Prod.mk.injEq] at h
      exact ⟨st.clock, by rw [← h.1]⟩
    | true => rw [runStep_task_fail hk hnf, Prod.mk.injEq] at h; cases h.2
  | file p =>
    cases hany : staleAny g t st p with
    | false =>
      rw [runStep_file_skip hk hany, Prod.mk.injEq] at h
      exact ⟨statTime st.fs p, by rw [← h.1]⟩
    | true =>
      cases hnf : env.bodyFails t with
      | false =>
        rw [runStep_file_run hk hany hnf, Prod.mk.injEq] at h
        exact ⟨st.clock, by rw [← h.1]⟩
      | true => rw [runStep_file_fail hk hany hnf, Prod.mk.injEq] at h; cases h.2

/-- A failing step: the body of the stepped task failed, the raised
error is the body's own error, and only the log changed. -/
theorem runStep_err {env : Env} {g : Graph} {t : Nat} {st st' : ExSt} {e : RunErr}
    (h : runStep env g t st = (st', some e)) :
    env.bodyFails t = true ∧ e = RunErr.raised (env.bodyErr t) ∧
      st' = { st with log := st.log ++ [t] } := by
  cases hk : (taskDef g t).kind with
  | task =>
    cases hnf : env.bodyFails t with
    | false => rw [runStep_task_ok hk hnf, Prod.mk.injEq] at h; cases h.2
    | true =>
      rw [runStep_task_fail hk hnf, Prod.mk.injEq] at h
      refine ⟨rfl, ?_, h.1.symm⟩
      injection h.2.symm
  | file p =>
    cases hany : staleAny g t st p with
    | false => rw [runStep_file_skip hk hany, Prod.mk.injEq] at h; cases h.2
    | true =>
      cases hnf : env.bodyFails t with
      | false => rw [runStep_file_run hk hany hnf, Prod.mk.injEq] at h; cases h.2
      | true =>
        rw [runStep_file_fail hk hany hnf, Prod.mk.injEq] at h
        refine ⟨rfl, ?_, h.1.symm⟩
        injection h.2.symm

/-- A step with a never-failing body environment cannot raise. -/
theorem runStep_nofail (env : Env) (g : Graph) (hnf : ∀ u, env.bodyFails u = false)
    (t : Nat) (st : ExSt) : (runStep env g t st).2 = none := by
  cases hk : (taskDef g t).kind with
  | task => rw [runStep_task_ok hk (hnf t)]
  | file p =>
    cases hany : staleAny g t st p with
    | false => rw [runStep_file_skip hk hany]
    | true => rw [runStep_file_run hk hany (hnf t)]

/-! ## Execution: the orchestrated loop -/

theorem execList_nil (env : Env) (g : Graph) (st : ExSt) :
    execList env g [] st = (st, none) := rfl

theorem execList_cons (env : Env) (g : Graph) (t : Nat) (ts : List Nat) (st : ExSt) :
    execList env g (t :: ts) st =
      (match runStep env g t st with
      | (st', none) => execList env g ts st'
      | (st', some e) => (st', some e)) := rfl

theorem execList_cons_ok {env : Env} {g : Graph} {t : Nat} {st st' : ExSt}
    (ts : List Nat) (h : runStep env g t st = (st', none)) :
    execList env g (t :: ts) st = execList env g ts st' := by
  rw [execList_cons, h]

theorem execList_cons_err {env : Env} {g : Graph} {t : Nat} {st st' : ExSt} {e : RunErr}
    (ts : List Nat) (h : runStep env g t st = (st', some e)) :
    execList env g (t :: ts) st = (st', some e) := by
  rw [execList_cons, h]

/-- Executing a concatenation: run the first part; on success continue,
on failure stop. -/
theorem execList_append (env : Env) (g : Graph) : ∀ ts1 ts2 : List Nat, ∀ st : ExSt,
    execList env g (ts1 ++ ts2) st =
      (match execList env g ts1 st with
      | (st1, none) => execList env g ts2 st1
      | (st1, some e) => (st1, some e)) := by
  intro ts1
  induction ts1 with
  | nil => intro ts2 st; rfl
  | cons t ts1 ih =>
    intro ts2 st
    rw [List.cons_append]
    cases hr : runStep env g t st with
    | mk st' r =>
      cases r with
      | none =>
        rw [execList_cons_ok (ts1 ++ ts2) hr, execList_cons_ok ts1 hr]
        exact ih ts2 st'
      | some e =>
        rw [execList_cons_err (ts1 ++ ts2) hr, execList_cons_err ts1 hr]

/-- Everything in the final body-call log was there before or belongs
to the executed list. -/
theorem execList_log_sub (env : Env) (g : Graph) : ∀ ts : List Nat, ∀ st : ExSt,
    ∀ x ∈ (execList env g ts st).1.log, x ∈ st.log ∨ x ∈ ts := by
  intro ts
  induction ts with
  | nil => intro st x hx; exact Or.inl hx
  | cons t ts ih =>
    intro st x hx
    cases hr : runStep env g t st with
    | mk st' r =>
      have hlog := runStep_log env g t st
      rw [hr] at hlog
      have hmem : ∀ y, y ∈ st'.log → y ∈ st.log ∨ y ∈ t :: ts := by
        intro y hy
        rcases hlog with hl | hl
        · rw [hl] at hy; exact Or.inl hy
        · rw [hl] at hy
          rcases List.mem_append.1 hy with h | h
          · exact Or.inl h
          · have hyt : y = t := List.mem_singleton.1 h
            exact Or.inr (hyt ▸ List.mem_cons_self t ts)
      cases r with
      | none =>
        rw [execList_cons_ok ts hr] at hx
        rcases ih st' x hx with hx' | hx'
        · exact hmem x hx'
        · exact Or.inr (List.mem_cons_of_mem t hx')
      | some e =>
        rw [execList_cons_err ts hr] at hx
        exact hmem x hx

/-- Body-call counting: no task is logged more often than it occurs in
the executed list. -/
theorem execList_count (env : Env) (g : Graph) (x : Nat) : ∀ ts : List Nat, ∀ st : ExSt,
    ((execList env g ts st).1.log).count x ≤ st.log.count x + ts.count x := by
  intro ts
  induction ts with
  | nil => intro st; simp [execList_nil]
  | cons t ts ih =>
    intro st
    have hc : (t :: ts).count x = [t].count x + ts.count x := by
      rw [← List.singleton_append, List.count_append]
    cases hr : runStep env g t st with
    | mk st' r =>
      have hlog := runStep_log env g t st
      rw [hr] at hlog
      have hstep : st'.log.count x ≤ st.log.count x + [t].count x := by
        rcases hlog with hl | hl
        · rw [hl]; omega
        · rw [hl, List.count_append]
      cases r with
      | none =>
        rw [execList_cons_ok ts hr]
        have := ih st'
        omega
      | some e =>
        rw [execList_cons_err ts hr]
        dsimp only
        omega

/-- On success, the tasks recorded in `state` are exactly the initial
ones followed by the executed list, in order. -/
theorem execList_tasks (env : Env) (g : Graph) : ∀ ts : List Nat, ∀ st st' : ExSt,
    execList env g ts st = (st', none) →
    st'.state.map Status.task = st.state.map Status.task ++ ts := by
  intro ts
  induction ts with
  | nil =>
    intro st st' h
    rw [execList_nil, Prod.mk.injEq] at h
    rw [← h.1]
    simp
  | cons t ts ih =>
    intro st st' h
    cases hr : runStep env g t st with
    | mk st1 r =>
      cases r with
      | none =>
        rw [execList_cons_ok ts hr] at h
        obtain ⟨m, hm⟩ := runStep_state_ok hr
        rw [ih st1 st' h, hm]
        simp
      | some e =>
        rw [execList_cons_err ts hr, Prod.mk.injEq] at h
        cases h.2

/-- On failure, the executed list splits into a successfully executed
prefix, the failing task, and an untouched remainder. -/
theorem execList_err (env : Env) (g : Graph) : ∀ ts : List Nat, ∀ st st' : ExSt,
    ∀ e : RunErr, execList env g ts st = (st', some e) →
    ∃ l1 t l2 st1, ts = l1 ++ t :: l2 ∧ execList env g l1 st = (st1, none) ∧
      runStep env g t st1 = (st', some e) := by
  intro ts
  induction ts with
  | nil =>
    intro st st' e h
    rw [execList_nil, Prod.mk.injEq] at h
    cases h.2
  | cons t ts ih =>
    intro st st' e h
    cases hr : runStep env g t st with
    | mk st1 r =>
      cases r with
      | none =>
        rw [execList_cons_ok ts hr] at h
        obtain ⟨l1, u, l2, st2, hts, hpre, hstep⟩ := ih st1 st' e h
        exact ⟨t :: l1, u, l2, st2, by rw [hts, List.cons_append],
          by rw [execList_cons_ok l1 hr]; exact hpre, hstep⟩
      | some e' =>
        rw [execList_cons_err ts hr, Prod.mk.injEq] at h
        obtain ⟨h1, h2⟩ := h
        have he : e' = e := by injection h2
        exact ⟨[], t, ts, st, rfl, execList_nil env g st, by rw [hr, h1, he]⟩

/-- With never-failing bodies the loop always succeeds. -/
theorem execList_nofail {env : Env} {g : Graph} (hnf : ∀ u, env.bodyFails u = false) :
    ∀ ts : List Nat, ∀ st : ExSt, (execList env g ts st).2 = none := by
  intro ts
  induction ts with
  | nil => intro st; rfl
  | cons t ts ih =>
    intro st
    cases hr : runStep env g t st with
    | mk st1 r =>
      have h2 := runStep_nofail env g hnf t st
      rw [hr] at h2
      cases r with
      | none => rw [execList_cons_ok ts hr]; exact ih st1
      | some e => simp at h2

/-! ## The staleness test versus `depsTime` -/

theorem lt_depsTime_aux (deps : List Nat) (m : Nat) : ∀ state : State, ∀ acc : Nat,
    (m < state.foldl (fun acc s => if s.task ∈ deps then max acc s.mtime else acc) acc) ↔
      (m < acc ∨
        state.any (fun s => decide (s.task ∈ deps) && decide (m < s.mtime)) = true) := by
  intro state
  induction state with
  | nil => intro acc; simp
  | cons s state ih =>
    intro acc
    rw [List.foldl_cons, List.any_cons]
    by_cases hd : s.task ∈ deps
    · rw [if_pos hd, ih, lt_max_iff]
      simp [hd]
      tauto
    · rw [if_neg hd, ih]
      simp [hd]

/-- The source's scan of `state` (`deps.includes(s.task) && s.mtime >
mtime`) triggers exactly when the target is strictly older than the
newest dependency status: the `depsTime` formulation of staleness. -/
theorem staleAny_iff (g : Graph) (t : Nat) (st : ExSt) (p : Nat) :
    staleAny g t st p = true ↔
      statTime st.fs p < depsTime st.state (taskDef g t).deps := by
  unfold staleAny depsTime
  rw [lt_depsTime_aux (taskDef g t).deps (statTime st.fs p) st.state 0]
  simp

theorem depsTime_le {deps : List Nat} {c : Nat} : ∀ {state : State},
    (∀ s ∈ state, s.mtime ≤ c) → depsTime state deps ≤ c := by
  have aux : ∀ state : State, ∀ acc, acc ≤ c → (∀ s ∈ state, s.mtime ≤ c) →
      state.foldl (fun acc s => if s.task ∈ deps then max acc s.mtime else acc) acc ≤ c := by
    intro state
    induction state with
    | nil => intro acc h _; exact h
    | cons s state ih =>
      intro acc hacc hst
      rw [List.foldl_cons]
      by_cases hd : s.task ∈ deps
      · rw [if_pos hd]
        exact ih _ (max_le hacc (hst s (List.mem_cons_self s state)))
          (fun u hu => hst u (List.mem_cons_of_mem s hu))
      · rw [if_neg hd]
        exact ih _ hacc (fun u hu => hst u (List.mem_cons_of_mem s hu))
  intro state h
  exact aux state 0 (Nat.zero_le c) h

/-! ## Clock sanity: recorded times never outrun the wall clock -/

/-- A sane execution state: the clock is positive and strictly ahead of
every filesystem mtime and every recorded status mtime. -/
structure ClockOk (st : ExSt) : Prop where
  pos : 0 < st.clock
  fs_lt : ∀ e ∈ st.fs, e.2 < st.clock
  st_lt : ∀ s ∈ st.state, s.mtime < st.clock

/-- Tame body effects: a body invoked at time `τ` writes no mtime
beyond `τ` (it may keep pre-existing entries). -/
def EffTame (env : Env) : Prop :=
  ∀ t τ fs, ∀ e ∈ env.bodyEff t τ fs, e.2 ≤ τ ∨ e ∈ fs

theorem statTime_lt {fs : FS} {c : Nat} (hpos : 0 < c)
    (h : ∀ e ∈ fs, e.2 < c) (p : Nat) : statTime fs p < c := by
  unfold statTime
  cases hf : fs.find? (fun e => e.1 == p) with
  | none => exact hpos
  | some e => exact h e (List.mem_of_find?_eq_some hf)

theorem clockOk_body {env : Env} {st : ExSt} (t : Nat)
    (henv : EffTame env) (hc : ClockOk st) :
    ClockOk ⟨st.state ++ [⟨t, st.clock⟩], env.bodyEff t st.clock st.fs,
      st.clock + 1, st.log ++ [t]⟩ := by
  refine ⟨Nat.succ_pos _, ?_, ?_⟩
  · dsimp only
    intro e he
    rcases henv t st.clock st.fs e he with h | h
    · omega
    · have := hc.fs_lt e h
      omega
  · dsimp only
    intro s hs
    rcases List.mem_append.1 hs with hs | hs
    · have := hc.st_lt s hs
      omega
    · have hse : s = ⟨t, st.clock⟩ := List.mem_singleton.1 hs
      rw [hse]
      exact Nat.lt_succ_self _

theorem clockOk_skip {st : ExSt} {t m : Nat} (hc : ClockOk st) (hm : m < st.clock) :
    ClockOk { st with state := st.state ++ [⟨t, m⟩] } := by
  refine ⟨hc.pos, hc.fs_lt, ?_⟩
  intro s hs
  rcases List.mem_append.1 hs with hs | hs
  · exact hc.st_lt s hs
  · have hse : s = ⟨t, m⟩ := List.mem_singleton.1 hs
    rw [hse]
    exact hm

theorem runStep_clockOk {env : Env} {g : Graph} {t : Nat} {st st' : ExSt}
    (henv : EffTame env) (hc : ClockOk st) (h : runStep env g t st = (st', none)) :
    ClockOk st' := by
  cases hk : (taskDef g t).kind with
  | task =>
    cases hnf : env.bodyFails t with
    | true => rw [runStep_task_fail hk hnf, Prod.mk.injEq] at h; cases h.2
    | false =>
      rw [runStep_task_ok hk hnf, Prod.mk.injEq] at h
      rw [← h.1]
      exact clockOk_body t henv hc
  | file p =>
    cases hany : staleAny g t st p with
    | false =>
      rw [runStep_file_skip hk hany, Prod.mk.injEq] at h
      rw [← h.1]
      exact clockOk_skip hc (statTime_lt hc.pos hc.fs_lt p)
    | true =>
      cases hnf : env.bodyFails t with
      | true => rw [runStep_file_fail hk hany hnf, Prod.mk.injEq] at h; cases h.2
      | false =>
        rw [runStep_file_run hk hany hnf, Prod.mk.injEq] at h
        rw [← h.1]
        exact clockOk_body t henv hc

theorem execList_clockOk {env : Env} {g : Graph} (henv : EffTame env) :
    ∀ ts : List Nat, ∀ st st' : ExSt, ClockOk st →
      execList env g ts st = (st', none) → ClockOk st' := by
  intro ts
  induction ts with
  | nil =>
    intro st st' hc h
    rw [execList_nil, Prod.mk.injEq] at h
    rw [← h.1]
    exact hc
  | cons t ts ih =>
    intro st st' hc h
    cases hr : runStep env g t st with
    | mk st1 r =>
      cases r with
      | none =>
        rw [execList_cons_ok ts hr] at h
        exact ih st1 st' (runStep_clockOk henv hc hr) h
      | some e =>
        rw [execList_cons_err ts hr, Prod.mk.injEq] at h
        cases h.2

/-! ## Reachable tasks stay inside the graph -/

/-- Dependencies always point into the graph (out-of-range ids have no
dependencies by construction). -/
theorem depsOf_lt {g : Graph} (hwf : WFG g) {x d : Nat} (hd : d ∈ depsOf g x) :
    d < g.tasks.length := by
  by_cases hlt : x < g.tasks.length
  · unfold depsOf taskDef at hd
    rw [List.getElem?_eq_getElem hlt] at hd
    exact hwf _ (List.getElem_mem hlt) d hd
  · unfold depsOf taskDef at hd
    rw [List.getElem?_eq_none (Nat.le_of_not_lt hlt)] at hd
    cases hd

/-- Any predicate closed under dependencies and true of the pending
tasks and the visited set stays true of the final visited set. -/
theorem visitList_closed (g : Graph) (P : Nat → Prop)
    (hP : ∀ x, P x → ∀ d ∈ depsOf g x, P d) :
    ∀ fuel ts path v s v' s', visitList g fuel ts path (v, s) = Except.ok (v', s') →
      (∀ t ∈ ts, P t) → (∀ x ∈ v, P x) → ∀ x ∈ v', P x := by
  intro fuel
  induction fuel with
  | zero =>
    intro ts path v s v' s' h
    rw [visitList_zero] at h
    cases h
  | succ fuel ih =>
    intro ts path v s v' s' h hts hv
    cases ts with
    | nil =>
      rw [visitList_nil] at h
      cases h
      exact hv
    | cons t ts =>
      rw [visitList_cons] at h
      by_cases h1 : t ∈ path
      · rw [if_pos h1] at h; cases h
      · rw [if_neg h1] at h
        by_cases h2 : t ∈ v
        · rw [if_pos h2] at h
          exact ih ts path v s v' s' h (fun u hu => hts u (List.mem_cons_of_mem t hu)) hv
        · rw [if_neg h2] at h
          cases hin : visitList g fuel (depsOf g t) (path ++ [t]) (v ++ [t], s) with
          | error e => rw [hin] at h; cases h
          | ok st2 =>
            obtain ⟨v2, s2⟩ := st2
            rw [hin] at h
            have hPt : P t := hts t (List.mem_cons_self t ts)
            have hv2 : ∀ x ∈ v2, P x := by
              refine ih (depsOf g t) (path ++ [t]) (v ++ [t]) s v2 s2 hin (hP t hPt) ?_
              intro x hx
              rcases List.mem_append.1 hx with hx | hx
              · exact hv x hx
              · have hxt : x = t := List.mem_singleton.1 hx
                exact hxt ▸ hPt
            exact ih ts path v2 (s2 ++ [t]) v' s' h
              (fun u hu => hts u (List.mem_cons_of_mem t hu)) hv2

/-- On a well-formed graph with in-range roots, a successful `topsort`
emits only in-range tasks. -/
theorem topsort_bound {g : Graph} {roots : List Nat} {fuel : Nat} {sorted : List Nat}
    (hwf : WFG g) (hroots : ∀ r ∈ roots, r < g.tasks.length)
    (h : topsort g roots fuel = Except.ok sorted) :
    ∀ t ∈ sorted, t < g.tasks.length := by
  unfold topsort at h
  cases hv : visitList g fuel roots [] ([], []) with
  | error e => rw [hv] at h; cases h
  | ok st =>
    obtain ⟨v', s'⟩ := st
    rw [hv] at h
    cases h
    have hinv0 : TInv g [] [] [] :=
      ⟨by simp, by simp, List.nodup_nil, DepClosed.nil⟩
    obtain ⟨hinv, -, -, -⟩ := visitList_inv g fuel roots [] [] [] _ _ hv hinv0
    have hvP := visitList_closed g (fun x => x < g.tasks.length)
      (fun x _ d hd => depsOf_lt hwf hd) fuel roots [] [] [] _ _ hv hroots
      (fun x hx => absurd hx (List.not_mem_nil x))
    intro t ht
    exact hvP t ((hinv.mem t).2 (Or.inl ht))

/-! ## File-backed graphs: the idempotence machinery -/

/-- The target path of a task (0 for plain tasks, unused there). -/
def targetOf (g : Graph) (t : Nat) : Nat :=
  match (taskDef g t).kind with
  | TaskKind.file p => p
  | TaskKind.task => 0

/-- Every task of the graph is a staleness-tracked `File` task. -/
def AllFile (g : Graph) : Prop :=
  ∀ t, t < g.tasks.length → (taskDef g t).kind = TaskKind.file (targetOf g t)

instance (g : Graph) : Decidable (AllFile g) := by
  unfold AllFile; infer_instance

/-- Distinct tasks are bound to distinct target paths. -/
def InjTargets (g : Graph) : Prop :=
  ∀ t, t < g.tasks.length → ∀ u, u < g.tasks.length → t ≠ u →
    targetOf g t ≠ targetOf g u

instance (g : Graph) : Decidable (InjTargets g) := by
  unfold InjTargets; infer_instance

/-- Build bodies that produce exactly their own target: a body invoked
at time `τ` records the target's mtime as `τ` and touches nothing
else. -/
def WritesOwn (env : Env) (g : Graph) : Prop :=
  ∀ t τ fs, env.bodyEff t τ fs = setTime fs (targetOf g t) τ

/-- No body ever fails. -/
def NoFail (env : Env) : Prop := ∀ t, env.bodyFails t = false

theorem statTime_set_self (fs : FS) (p τ : Nat) :
    statTime (setTime fs p τ) p = τ := by
  unfold statTime setTime
  rw [List.find?_cons_of_pos _ (by simp)]

theorem statTime_set_other (fs : FS) {p q : Nat} (h : q ≠ p) (τ : Nat) :
    statTime (setTime fs p τ) q = statTime fs q := by
  unfold statTime setTime
  rw [List.find?_cons_of_neg _ (by simp [h.symm])]

theorem mem_of_map_task {state : State} {done : List Nat}
    (h : state.map Status.task = done) {d : Nat} (hd : d ∈ done) :
    ∃ s ∈ state, s.task = d := by
  rw [← h] at hd
  obtain ⟨s, hs, hst⟩ := List.mem_map.1 hd
  exact ⟨s, hs, hst⟩

/-- The invariant carried through the first run of an all-file graph:
the recorded statuses are exactly the processed tasks, each status
mtime matches the current filesystem mtime of its target, statuses are
settled (no status is older than a status of one of its dependencies),
and the clock is sane. -/
structure RunInv (g : Graph) (done : List Nat) (st : ExSt) : Prop where
  tasks_eq : st.state.map Status.task = done
  rec_fs : ∀ s ∈ st.state, s.mtime = statTime st.fs (targetOf g s.task)
  settled : ∀ s ∈ st.state, ∀ d ∈ depsOf g s.task,
      ∃ s' ∈ st.state, s'.task = d ∧ s'.mtime ≤ s.mtime
  clock : ClockOk st

theorem runStep_runInv {env : Env} {g : Graph} {done : List Nat} {t : Nat} {st : ExSt}
    (hg : AllFile g) (hinj : InjTargets g) (hw : WritesOwn env g) (hnf : NoFail env)
    (hlt : t < g.tasks.length) (hdone : ∀ x ∈ done, x < g.tasks.length)
    (hnotin : t ∉ done) (hdeps : ∀ d ∈ depsOf g t, d ∈ done)
    (hinv : RunInv g done st) :
    ∃ st', runStep env g t st = (st', none) ∧ RunInv g (done ++ [t]) st' := by
  have hk := hg t hlt
  cases hany : staleAny g t st (targetOf g t) with
  | false =>
    refine ⟨_, runStep_file_skip hk hany, ?_⟩
    have hanyf : ∀ s ∈ st.state, s.task ∈ (taskDef g t).deps →
        ¬ statTime st.fs (targetOf g t) < s.mtime := by
      unfold staleAny at hany
      have h := List.any_eq_false.1 hany
      intro s hs hmem hlt
      exact h s hs (by simp [hmem, hlt])
    refine ⟨?_, ?_, ?_, ?_⟩
    · dsimp only
      rw [List.map_append, hinv.tasks_eq]
      rfl
    · dsimp only
      intro s hs
      rcases List.mem_append.1 hs with hs | hs
      · exact hinv.rec_fs s hs
      · have hse : s = ⟨t, statTime st.fs (targetOf g t)⟩ := List.mem_singleton.1 hs
        rw [hse]
    · dsimp only
      intro s hs d hd
      rcases List.mem_append.1 hs with hs | hs
      · obtain ⟨s', hs', hd', hle⟩ := hinv.settled s hs d hd
        exact ⟨s', List.mem_append.2 (Or.inl hs'), hd', hle⟩
      · have hse : s = ⟨t, statTime st.fs (targetOf g t)⟩ := List.mem_singleton.1 hs
        rw [hse] at hd ⊢
        obtain ⟨s', hs', hd'⟩ := mem_of_map_task hinv.tasks_eq (hdeps d hd)
        refine ⟨s', List.mem_append.2 (Or.inl hs'), hd', ?_⟩
        have hnlt := hanyf s' hs' (hd'.symm ▸ hd)
        dsimp only
        omega
    · exact clockOk_skip hinv.clock (statTime_lt hinv.clock.pos hinv.clock.fs_lt _)
  | true =>
    refine ⟨_, runStep_file_run hk hany (hnf t), ?_⟩
    rw [hw t st.clock st.fs]
    refine ⟨?_, ?_, ?_, ?_⟩
    · dsimp only
      rw [List.map_append, hinv.tasks_eq]
      rfl
    · dsimp only
      intro s hs
      rcases List.mem_append.1 hs with hs | hs
      · have hmem : s.task ∈ done :=
          hinv.tasks_eq ▸ List.mem_map.2 ⟨s, hs, rfl⟩
        have hne : s.task ≠ t := fun hc => hnotin (hc ▸ hmem)
        rw [statTime_set_other st.fs (hinj s.task (hdone _ hmem) t hlt hne) st.clock]
        exact hinv.rec_fs s hs
      · have hse : s = ⟨t, st.clock⟩ := List.mem_singleton.1 hs
        rw [hse]
        dsimp only
        rw [statTime_set_self]
    · dsimp only
      intro s hs d hd
      rcases List.mem_append.1 hs with hs | hs
      · obtain ⟨s', hs', hd', hle⟩ := hinv.settled s hs d hd
        exact ⟨s', List.mem_append.2 (Or.inl hs'), hd', hle⟩
      · have hse : s = ⟨t, st.clock⟩ := List.mem_singleton.1 hs
        rw [hse] at hd ⊢
        obtain ⟨s', hs', hd'⟩ := mem_of_map_task hinv.tasks_eq (hdeps d hd)
        refine ⟨s', List.mem_append.2 (Or.inl hs'), hd', ?_⟩
        have := hinv.clock.st_lt s' hs'
        dsimp only
        omega
    · refine ⟨Nat.succ_pos _, ?_, ?_⟩
      · dsimp only
        intro e he
        unfold setTime at he
        rcases List.mem_cons.1 he with rfl | he
        · exact Nat.lt_succ_self _
        · have := hinv.clock.fs_lt e he
          omega
      · dsimp only
        intro s hs
        rcases List.mem_append.1 hs with hs | hs
        · have := hinv.clock.st_lt s hs
          omega
        · have hse : s = ⟨t, st.clock⟩ := List.mem_singleton.1 hs
          rw [hse]
          exact Nat.lt_succ_self _

theorem execList_runInv {env : Env} {g : Graph}
    (hg : AllFile g) (hinj : InjTargets g) (hw : WritesOwn env g) (hnf : NoFail env) :
    ∀ ts done : List Nat, ∀ st : ExSt, RunInv g done st →
      (done ++ ts).Nodup → (∀ x ∈ done ++ ts, x < g.tasks.length) →
      DepClosed g (done ++ ts) →
      ∃ st', execList env g ts st = (st', none) ∧ RunInv g (done ++ ts) st' := by
  intro ts
  induction ts with
  | nil =>
    intro done st hinv _ _ _
    exact ⟨st, execList_nil env g st, by rw [List.append_nil]; exact hinv⟩
  | cons t ts ih =>
    intro done st hinv hnd hbound hdc
    have hassoc : done ++ t :: ts = (done ++ [t]) ++ ts := by
      rw [List.append_assoc, List.singleton_append]
    have hlt : t < g.tasks.length :=
      hbound t (List.mem_append.2 (Or.inr (List.mem_cons_self t ts)))
    have hdone : ∀ x ∈ done, x < g.tasks.length :=
      fun x hx => hbound x (List.mem_append.2 (Or.inl hx))
    have hnotin : t ∉ done := by
      intro hc
      have hdisj := (List.nodup_append.1 hnd).2.2
      exact hdisj hc (List.mem_cons_self t ts)
    have hdeps : ∀ d ∈ depsOf g t, d ∈ done := hdc.split done t ts rfl
    obtain ⟨st1, hstep, hinv1⟩ :=
      runStep_runInv hg hinj hw hnf hlt hdone hnotin hdeps hinv
    obtain ⟨st', hrest, hinv'⟩ := ih (done ++ [t]) st1 hinv1
      (by rw [← hassoc]; exact hnd) (by rw [← hassoc]; exact hbound)
      (by rw [← hassoc]; exact hdc)
    refine ⟨st', ?_, ?_⟩
    · rw [execList_cons_ok ts hstep]
      exact hrest
    · rw [hassoc]
      exact hinv'

/-- A filesystem is settled for a task list when no listed task's
target is older than any of its dependencies' targets. -/
def Settled (g : Graph) (ts : List Nat) (fs : FS) : Prop :=
  ∀ t ∈ ts, ∀ d ∈ depsOf g t,
    statTime fs (targetOf g d) ≤ statTime fs (targetOf g t)

/-- After a full first run the filesystem is settled for the executed
tasks. -/
theorem runInv_settled {g : Graph} {sorted : List Nat} {st : ExSt}
    (hinv : RunInv g sorted st) : Settled g sorted st.fs := by
  intro t ht d hd
  obtain ⟨s, hs, hst⟩ := mem_of_map_task hinv.tasks_eq ht
  obtain ⟨s', hs', hd', hle⟩ := hinv.settled s hs d (by rw [hst]; exact hd)
  have h1 := hinv.rec_fs s hs
  have h2 := hinv.rec_fs s' hs'
  rw [hst] at h1
  rw [hd'] at h2
  omega

/-- Running any tasks of a settled all-file graph executes no bodies:
every step takes the skip branch and records the existing mtime. -/
theorem execList_settled {env : Env} {g : Graph} (ALL : List Nat) (fs : FS)
    (hg : AllFile g) (hALL : ∀ x ∈ ALL, x < g.tasks.length)
    (hset : Settled g ALL fs) :
    ∀ ts done : List Nat, ∀ st : ExSt, (∀ x ∈ ts, x ∈ ALL) → st.fs = fs →
      st.state = done.map (fun u => (⟨u, statTime fs (targetOf g u)⟩ : Status)) →
      execList env g ts st =
        (⟨st.state ++ ts.map (fun u => (⟨u, statTime fs (targetOf g u)⟩ : Status)),
          st.fs, st.clock, st.log⟩, none) := by
  intro ts
  induction ts with
  | nil =>
    intro done st _ _ _
    rw [execList_nil, List.map_nil, List.append_nil]
  | cons t ts ih =>
    intro done st hts hfs hstate
    have htALL : t ∈ ALL := hts t (List.mem_cons_self t ts)
    have hk := hg t (hALL t htALL)
    have hany : staleAny g t st (targetOf g t) = false := by
      unfold staleAny
      rw [List.any_eq_false]
      intro s hs
      rw [hstate] at hs
      obtain ⟨u, hu, hsu⟩ := List.mem_map.1 hs
      intro hcontra
      rw [Bool.and_eq_true, decide_eq_true_eq, decide_eq_true_eq] at hcontra
      obtain ⟨hud, hlt⟩ := hcontra
      rw [← hsu] at hud hlt
      dsimp only at hud hlt
      have hle := hset t htALL u hud
      rw [hfs] at hlt
      omega
    rw [execList_cons_ok ts (runStep_file_skip hk hany)]
    rw [ih (done ++ [t]) _ (fun x hx => hts x (List.mem_cons_of_mem t hx))
      (by dsimp only; exact hfs)
      (by dsimp only; rw [hstate, List.map_append, hfs]; rfl)]
    dsimp only
    rw [Prod.mk.injEq, ExSt.mk.injEq]
    refine ⟨⟨?_, rfl, rfl, rfl⟩, rfl⟩
    rw [List.map_cons, hfs, List.append_assoc, List.singleton_append]

/-- Decidable equality of `Except` results, for evaluating the
linearizer on concrete inputs. -/
instance {ε α : Type} [DecidableEq ε] [DecidableEq α] : DecidableEq (Except ε α)
  | Except.error e, Except.error f =>
    if h : e = f then isTrue (by rw [h])
    else isFalse (fun hc => h (by injection hc))
  | Except.error _, Except.ok _ => isFalse (fun hc => Except.noConfusion hc)
  | Except.ok _, Except.error _ => isFalse (fun hc => Except.noConfusion hc)
  | Except.ok a, Except.ok b =>
    if h : a = b then isTrue (by rw [h])
    else isFalse (fun hc => h (by injection hc))

/-! ## Concrete graphs and environments for the scenario theorems -/

/-- Bodies that never fail and touch nothing. -/
def envPlain : Env := ⟨fun _ => false, fun _ => 0, fun _ _ fs => fs⟩

/-- Bodies that always throw the error value `7` (and touch nothing). -/
def envFail7 : Env := ⟨fun _ => true, fun _ => 7, fun _ _ fs => fs⟩

/-- The diamond: `D = 3` depends on `B = 1` and `C = 2`, both depending
on `A = 0`. -/
def gDiamond : Graph :=
  ⟨[⟨TaskKind.task, []⟩, ⟨TaskKind.task, [0]⟩, ⟨TaskKind.task, [0]⟩,
    ⟨TaskKind.task, [1, 2]⟩]⟩

/-- A task listing itself as a dependency. -/
def gLoop : Graph := ⟨[⟨TaskKind.task, [0]⟩]⟩

/-- Two independent plain tasks. -/
def gTwo : Graph := ⟨[⟨TaskKind.task, []⟩, ⟨TaskKind.task, []⟩]⟩

/-- Two file tasks: task `1` (target path 1) depends on task `0`
(target path 0). -/
def gFiles : Graph := ⟨[⟨TaskKind.file 0, []⟩, ⟨TaskKind.file 1, [0]⟩]⟩

/-- Bodies for `gFiles` that write exactly their own target. -/
def envFiles : Env := ⟨fun _ => false, fun _ => 0,
  fun t τ fs => setTime fs (targetOf gFiles t) τ⟩

/-- One dependency-free file task targeting path 0. -/
def gSolo : Graph := ⟨[⟨TaskKind.file 0, []⟩]⟩

/-- Bodies for `gSolo` that would create the missing target. -/
def envSolo : Env := ⟨fun _ => false, fun _ => 0,
  fun t τ fs => setTime fs (targetOf gSolo t) τ⟩

/-- Shared-target graph: tasks `0` and `3` both target path 0, task `1`
(target 1) depends on `0`, task `3` depends on `2` (target 2). -/
def gShare : Graph :=
  ⟨[⟨TaskKind.file 0, []⟩, ⟨TaskKind.file 1, [0]⟩, ⟨TaskKind.file 2, []⟩,
    ⟨TaskKind.file 0, [2]⟩]⟩

/-- Bodies for `gShare` that write exactly their own target. -/
def envShare : Env := ⟨fun _ => false, fun _ => 0,
  fun t τ fs => setTime fs (targetOf gShare t) τ⟩

/-! ## The claims -/

/-- **C1.** For every set of root tasks whose reachable dependency
graph contains a cycle (a task listing itself included), `run` fails
with the cyclic-dependency error before any execution: no body is
invoked (empty body-call log), no `Status` is produced (empty state),
and the filesystem and clock are untouched. -/
theorem c1_cycle_aborts_run (env : Env) (g : Graph) (roots : List Nat) (fs0 : FS)
    (c0 : Nat) (hwf : WFG g) (hcyc : ReachCycle g roots) :
    run env g roots fs0 c0 = (⟨[], fs0, c0, []⟩, some RunErr.cyclic) := by
  cases ht : topsort g roots (fuelBound g roots) with
  | error e =>
    cases e with
    | cyclic => unfold run; rw [ht]
    | fuel => exact absurd ht (topsort_no_fuel g roots hwf)
  | ok sorted => exact absurd hcyc (topsort_acyclic ht)

/-- Witness for C1: the self-dependent task. -/
theorem c1_witness :
    run envPlain gLoop [0] [] 0 = (⟨[], [], 0, []⟩, some RunErr.cyclic) :=
  c1_cycle_aborts_run envPlain gLoop [0] [] 0 (by decide)
    ⟨0, List.mem_singleton.2 rfl, 0, Relation.ReflTransGen.refl,
      Relation.TransGen.single (by decide)⟩

/-- **C2.** Within one `run`, every task's body executes at most once,
for any graph, environment and root set; and on the diamond
(D depends on B and C, both depend on A), `run(D)` executes A's body
exactly once, then B's and C's, then D's exactly once: the body-call
log is `[A, B, C, D]`. -/
theorem c2_at_most_once :
    (∀ (env : Env) (g : Graph) (roots : List Nat) (fs0 : FS) (c0 x : Nat),
      ((run env g roots fs0 c0).1.log).count x ≤ 1) ∧
      (run envPlain gDiamond [3] [] 0).1.log = [0, 1, 2, 3] := by
  constructor
  · intro env g roots fs0 c0 x
    unfold run
    cases ht : topsort g roots (fuelBound g roots) with
    | error e => cases e <;> simp
    | ok sorted =>
      dsimp only
      have hnd := (topsort_ok ht).1
      have hcount := execList_count env g x sorted ⟨[], fs0, c0, []⟩
      have hone : sorted.count x ≤ 1 := List.nodup_iff_count_le_one.1 hnd x
      simp only [List.count_nil] at hcount
      omega
  · decide

/-- **C3.** For a `run` that returns a state: (a) each status in the
returned state is preceded by statuses for all of its task's
dependencies; (b) whenever the orchestrator invokes a task's
`run(state)` (i.e. after successfully executing any prefix of the
linearized order), the statuses of all of that task's dependencies are
already present in the state argument. -/
theorem c3_dependency_order (env : Env) (g : Graph) (roots : List Nat) (fs0 : FS)
    (c0 : Nat) (st : ExSt) (h : run env g roots fs0 c0 = (st, none)) :
    (∀ l1 s l2, st.state = l1 ++ s :: l2 → ∀ d ∈ depsOf g s.task,
      ∃ s' ∈ l1, s'.task = d) ∧
    (∀ sorted l1 t l2, topsort g roots (fuelBound g roots) = Except.ok sorted →
      sorted = l1 ++ t :: l2 →
      ∃ st1, execList env g l1 ⟨[], fs0, c0, []⟩ = (st1, none) ∧
        ∀ d ∈ depsOf g t, ∃ s' ∈ st1.state, s'.task = d) := by
  unfold run at h
  cases ht : topsort g roots (fuelBound g roots) with
  | error e =>
    rw [ht] at h
    cases e <;> (rw [Prod.mk.injEq] at h; cases h.2)
  | ok sorted0 =>
    rw [ht] at h
    dsimp only at h
    obtain ⟨hnd, hdc, hroots⟩ := topsort_ok ht
    have htasks := execList_tasks env g sorted0 _ _ h
    simp only [List.map_nil, List.nil_append] at htasks
    constructor
    · intro l1 s l2 hdec d hd
      have hmap : sorted0 = l1.map Status.task ++ s.task :: l2.map Status.task := by
        rw [← htasks, hdec]
        simp
      have hd1 : d ∈ l1.map Status.task := hdc.split _ _ _ hmap d hd
      obtain ⟨s', hs', hst⟩ := List.mem_map.1 hd1
      exact ⟨s', hs', hst⟩
    · intro sorted l1 t l2 ht' hdec
      have hss : sorted0 = sorted := by injection ht'
      have hs0 : sorted0 = l1 ++ t :: l2 := hss.trans hdec
      rw [hs0] at h
      have happ := execList_append env g l1 (t :: l2) ⟨[], fs0, c0, []⟩
      rw [h] at happ
      cases hpre : execList env g l1 ⟨[], fs0, c0, []⟩ with
      | mk st1 r =>
        rw [hpre] at happ
        cases r with
        | some e =>
          rw [Prod.mk.injEq] at happ
          cases happ.2
        | none =>
          refine ⟨st1, rfl, ?_⟩
          have htasks1 := execList_tasks env g l1 _ _ hpre
          simp only [List.map_nil, List.nil_append] at htasks1
          intro d hd
          exact mem_of_map_task htasks1 (hdc.split l1 t l2 hs0 d hd)

/-- Witness for C3: the diamond run; instantiating (a) at the split
before D's status shows B's status precedes it, and (b) at D's slot in
the linearized order shows D sees statuses for both B and C. -/
theorem c3_witness :
    (∃ s' ∈ [(⟨0, 0⟩ : Status), ⟨1, 1⟩, ⟨2, 2⟩], Status.task s' = 1) ∧
    (∃ st1, execList envPlain gDiamond [0, 1, 2] ⟨[], [], 0, []⟩ = (st1, none) ∧
      ∀ d ∈ depsOf gDiamond 3, ∃ s' ∈ st1.state, s'.task = d) := by
  have h := c3_dependency_order envPlain gDiamond [3] [] 0
    ⟨[⟨0, 0⟩, ⟨1, 1⟩, ⟨2, 2⟩, ⟨3, 3⟩], [], 4, [0, 1, 2, 3]⟩ (by decide)
  constructor
  · exact h.1 [⟨0, 0⟩, ⟨1, 1⟩, ⟨2, 2⟩] ⟨3, 3⟩ [] (by decide) 1 (by decide)
  · exact h.2 [0, 1, 2, 3] [0, 1, 2] 3 [] (by decide) (by decide)

/-- **C10.** The fueled linearizer always terminates with a definite
answer on a well-formed graph: with the budget `fuelBound` it either
reports the cyclic-dependency error or returns a linearization — it
never exhausts its fuel, which embeds the termination argument of the
source's recursive `visit` (each recursive descent strictly enlarges
the visited set, which is bounded by the graph). -/
theorem c10_topsort_total (g : Graph) (roots : List Nat) (hwf : WFG g) :
    topsort g roots (fuelBound g roots) = Except.error TopErr.cyclic ∨
      ∃ sorted, topsort g roots (fuelBound g roots) = Except.ok sorted := by
  cases ht : topsort g roots (fuelBound g roots) with
  | error e =>
    cases e with
    | cyclic => exact Or.inl rfl
    | fuel => exact absurd ht (topsort_no_fuel g roots hwf)
  | ok sorted => exact Or.inr ⟨sorted, rfl⟩

/-- Witness for C10: on the self-loop graph the linearizer terminates
(with the cyclic error). -/
theorem c10_witness :
    topsort gLoop [0] (fuelBound gLoop [0]) = Except.error TopErr.cyclic ∨
      ∃ sorted, topsort gLoop [0] (fuelBound gLoop [0]) = Except.ok sorted :=
  c10_topsort_total gLoop [0] (by decide)

/-- Counterexample to **C4 as stated**: the claim's boundary is wrong
for the primary variant.  With the target of file task 1 and its only
dependency's recorded status both at mtime 5, the resource's timestamp
is *at* `depsTime` (5 ≤ 5), so the claim requires the body to execute;
but the run executes no body at all (empty body-call log) and appends
the existing timestamp — the source's test `s.mtime > mtime` is
strict. -/
theorem c4_counterexample :
    statTime [(0, 5), (1, 5)] 1 ≤ depsTime [⟨0, 5⟩] (taskDef gFiles 1).deps ∧
    run envPlain gFiles [1] [(0, 5), (1, 5)] 100 =
      (⟨[⟨0, 5⟩, ⟨1, 5⟩], [(0, 5), (1, 5)], 100, []⟩, none) := by
  constructor
  · decide
  · decide

/-- **C4 (amended).** For a staleness-tracked (`File`) node, the body
executes iff the resource's timestamp (absent ↦ epoch) is *strictly
before* `depsTime`, the maximum recorded dependency timestamp (`0`
with no dependency statuses — so a missing resource is rebuilt only
when some dependency status is strictly after the epoch); when it does
not execute, the step appends a `Status` carrying the resource's
existing timestamp and changes nothing else. -/
theorem c4_file_staleness (env : Env) (g : Graph) (t p : Nat) (st : ExSt)
    (hk : (taskDef g t).kind = TaskKind.file p) :
    ((runStep env g t st).1.log ≠ st.log ↔
      statTime st.fs p < depsTime st.state (taskDef g t).deps) ∧
    (¬ statTime st.fs p < depsTime st.state (taskDef g t).deps →
      runStep env g t st =
        ({ st with state := st.state ++ [⟨t, statTime st.fs p⟩] }, none)) := by
  have hiff := staleAny_iff g t st p
  have hne : st.log ++ [t] ≠ st.log := by
    intro hc
    have := congrArg List.length hc
    simp at this
  constructor
  · cases hany : staleAny g t st p with
    | false =>
      rw [hany] at hiff
      rw [runStep_file_skip hk hany]
      dsimp only
      constructor
      · intro hcon
        exact absurd rfl hcon
      · intro hlt
        exact absurd (hiff.2 hlt) (by simp)
    | true =>
      rw [hany] at hiff
      have hlt := hiff.1 rfl
      cases hnf : env.bodyFails t with
      | false =>
        rw [runStep_file_run hk hany hnf]
        exact ⟨fun _ => hlt, fun _ => hne⟩
      | true =>
        rw [runStep_file_fail hk hany hnf]
        exact ⟨fun _ => hlt, fun _ => hne⟩
  · intro hnlt
    cases hany : staleAny g t st p with
    | true =>
      rw [hany] at hiff
      exact absurd (hiff.1 rfl) hnlt
    | false => exact runStep_file_skip hk hany

/-- Witness for the amended C4: a strictly stale target (mtime 3,
dependency status 5) does execute its body. -/
theorem c4_witness :
    ((runStep envPlain gFiles 1 ⟨[⟨0, 5⟩], [(0, 5), (1, 3)], 100, []⟩).1.log ≠ [] ↔
      statTime [(0, 5), (1, 3)] 1 < depsTime [⟨0, 5⟩] (taskDef gFiles 1).deps) ∧
    (¬ statTime [(0, 5), (1, 3)] 1 < depsTime [⟨0, 5⟩] (taskDef gFiles 1).deps →
      runStep envPlain gFiles 1 ⟨[⟨0, 5⟩], [(0, 5), (1, 3)], 100, []⟩ =
        (⟨[⟨0, 5⟩, ⟨1, 3⟩], [(0, 5), (1, 3)], 100, []⟩, none)) :=
  c4_file_staleness envPlain gFiles 1 1 ⟨[⟨0, 5⟩], [(0, 5), (1, 3)], 100, []⟩ (by decide)

/-- **C5 is violated by the code** (`code_bug`): a staleness-tracked
node whose target is absent (`stat` reports not found, timestamp
epoch) and whose dependency list is empty never executes its body —
the scan of `state` finds no dependency status strictly newer than the
epoch, so the body is skipped, the epoch itself is recorded, and the
filesystem and clock are unchanged (hence the immediately following
`run` is the identical call and again executes nothing).  The claim,
the repository README ("run only if the file is missing or older than
the dependencies") and the `FileTask` variant (`shouldRunBody =
mtime.getTime() === 0`) all require the body to run. -/
theorem c5_missing_target_skipped :
    run envSolo gSolo [0] [] 5 = (⟨[⟨0, 0⟩], [], 5, []⟩, none) := by decide

/-- Counterexample to **C6 as stated**: the surfaced failure does not
identify the failing task.  Two runs in which *different* tasks fail
(body-call logs `[0]` versus `[1]`) surface the *same* error value
`raised 7` — the body's own thrown error, with no task attached. -/
theorem c6_counterexample :
    run envFail7 gTwo [0] [] 0 = (⟨[], [], 0, [0]⟩, some (RunErr.raised 7)) ∧
    run envFail7 gTwo [1] [] 0 = (⟨[], [], 0, [1]⟩, some (RunErr.raised 7)) := by
  constructor
  · decide
  · decide

/-- **C6 (amended).** If a body fails during `run`, the run rejects
with that body's own error (policy (a): stop at the first failure; the
error value does not identify the task): the linearized order splits
as `l1 ++ t :: l2` where the prefix `l1` executed successfully, `t` is
the failing task whose thrown error is surfaced unchanged, the state
keeps only the prefix statuses, and no task after `t` in the
linearized order has its body invoked. -/
theorem c6_stop_at_failure (env : Env) (g : Graph) (roots : List Nat) (fs0 : FS)
    (c0 : Nat) (st : ExSt) (e : Nat)
    (h : run env g roots fs0 c0 = (st, some (RunErr.raised e))) :
    ∃ sorted l1 t l2 st1,
      topsort g roots (fuelBound g roots) = Except.ok sorted ∧
      sorted = l1 ++ t :: l2 ∧
      execList env g l1 ⟨[], fs0, c0, []⟩ = (st1, none) ∧
      env.bodyFails t = true ∧ e = env.bodyErr t ∧
      st.log = st1.log ++ [t] ∧ st.state = st1.state ∧
      ∀ u ∈ l2, u ∉ st.log := by
  unfold run at h
  cases ht : topsort g roots (fuelBound g roots) with
  | error e' =>
    rw [ht] at h
    cases e' <;> simp at h
  | ok sorted =>
    rw [ht] at h
    dsimp only at h
    obtain ⟨hnd, -, -⟩ := topsort_ok ht
    obtain ⟨l1, t, l2, st1, hts, hpre, hstep⟩ := execList_err env g sorted _ _ _ h
    obtain ⟨hbf, he, hst'⟩ := runStep_err hstep
    have he' : e = env.bodyErr t := by injection he
    rw [hts] at hnd
    obtain ⟨-, hnd2, hdisj⟩ := List.nodup_append.1 hnd
    refine ⟨sorted, l1, t, l2, st1, rfl, hts, hpre, hbf, he', ?_, ?_, ?_⟩
    · rw [hst']
    · rw [hst']
    · intro u hu hmem
      rw [hst'] at hmem
      dsimp only at hmem
      have hsub := execList_log_sub env g l1 ⟨[], fs0, c0, []⟩
      rw [hpre] at hsub
      dsimp only at hsub
      rcases List.mem_append.1 hmem with hm | hm
      · rcases hsub u hm with h' | h'
        · cases h'
        · exact hdisj h' (List.mem_cons_of_mem t hu)
      · have hut : u = t := List.mem_singleton.1 hm
        rw [hut] at hu
        exact (List.nodup_cons.1 hnd2).1 hu

/-- Witness for the amended C6: the failing run over two plain tasks,
requesting root 0. -/
theorem c6_witness :
    ∃ sorted l1 t l2 st1,
      topsort gTwo [0] (fuelBound gTwo [0]) = Except.ok sorted ∧
      sorted = l1 ++ t :: l2 ∧
      execList envFail7 gTwo l1 ⟨[], [], 0, []⟩ = (st1, none) ∧
      envFail7.bodyFails t = true ∧ 7 = envFail7.bodyErr t ∧
      (⟨[], [], 0, [0]⟩ : ExSt).log = st1.log ++ [t] ∧
      (⟨[], [], 0, [0]⟩ : ExSt).state = st1.state ∧
      ∀ u ∈ l2, u ∉ (⟨[], [], 0, [0]⟩ : ExSt).log :=
  c6_stop_at_failure envFail7 gTwo [0] [] 0 ⟨[], [], 0, [0]⟩ 7 (by decide)

/-- **C7.** Whenever a staleness-tracked node's body executes and
completes successfully at some point of a run (here: after any
successfully executed prefix of the linearized order, starting from a
fresh state with a wall clock strictly ahead of every recorded
filesystem mtime, and with bodies that never write mtimes beyond the
invocation time), the recorded timestamp is the current clock, which
is at or above `depsTime`, the maximum of the dependencies' recorded
timestamps. -/
theorem c7_monotonic (env : Env) (g : Graph) (fs0 : FS) (c0 : Nat)
    (l1 : List Nat) (t p : Nat) (st1 st' : ExSt)
    (henv : EffTame env) (hc0 : 0 < c0) (hfs : ∀ e ∈ fs0, e.2 < c0)
    (h1 : execList env g l1 ⟨[], fs0, c0, []⟩ = (st1, none))
    (hk : (taskDef g t).kind = TaskKind.file p)
    (hrun : runStep env g t st1 = (st', none))
    (hbody : st'.log ≠ st1.log) :
    st'.state = st1.state ++ [⟨t, st1.clock⟩] ∧
    depsTime st1.state (taskDef g t).deps ≤ st1.clock := by
  have hck : ClockOk st1 := execList_clockOk henv l1 _ _
    ⟨hc0, hfs, fun s hs => absurd hs (List.not_mem_nil s)⟩ h1
  constructor
  · cases hany : staleAny g t st1 p with
    | false =>
      rw [runStep_file_skip hk hany, Prod.mk.injEq] at hrun
      rw [← hrun.1] at hbody
      exact absurd rfl hbody
    | true =>
      cases hnf : env.bodyFails t with
      | true =>
        rw [runStep_file_fail hk hany hnf, Prod.mk.injEq] at hrun
        cases hrun.2
      | false =>
        rw [runStep_file_run hk hany hnf, Prod.mk.injEq] at hrun
        rw [← hrun.1]
  · exact depsTime_le (fun s hs => Nat.le_of_lt (hck.st_lt s hs))

/-- Witness for C7: file task 1 of `gFiles` rebuilds (target mtime 3,
dependency status 5) and records clock 100 ≥ depsTime 5. -/
theorem c7_witness :
    ([⟨0, 5⟩, ⟨1, 100⟩] : State) = [⟨0, 5⟩] ++ [⟨1, 100⟩] ∧
    depsTime [⟨0, 5⟩] (taskDef gFiles 1).deps ≤ 100 :=
  c7_monotonic envPlain gFiles [(0, 5), (1, 3)] 100 [0] 1 1
    ⟨[⟨0, 5⟩], [(0, 5), (1, 3)], 100, []⟩
    ⟨[⟨0, 5⟩, ⟨1, 100⟩], [(0, 5), (1, 3)], 101, [1]⟩
    (fun _ _ fs e he => Or.inr he) (by decide) (by decide) (by decide)
    (by decide) (by decide) (by decide)

/-- Counterexample to **C8 as stated**: an acyclic all-file graph (its
linearization succeeds), bodies writing exactly their own targets,
no body failures, run twice with no external change in between — yet
the second run executes a body.  Tasks 0 and 3 of `gShare` share
target path 0: in run 1 task 3 rebuilds path 0 (its dependency, target
path 2, is newer), so in run 2 task 1 sees its dependency task 0
(whose target is also path 0) newer than its own target and rebuilds —
second-run body-call log `[1]`, not `[]`. -/
theorem c8_counterexample :
    AllFile gShare ∧
    topsort gShare [1, 3] (fuelBound gShare [1, 3]) = Except.ok [0, 1, 2, 3] ∧
    (run envShare gShare [1, 3] [(0, 10), (1, 10), (2, 20)] 100).2 = none ∧
    ((run envShare gShare [1, 3]
        (run envShare gShare [1, 3] [(0, 10), (1, 10), (2, 20)] 100).1.fs
        (run envShare gShare [1, 3] [(0, 10), (1, 10), (2, 20)] 100).1.clock).1.log
      = [1]) := by
  refine ⟨by decide, by decide, by decide, by decide⟩

/-- **C8 (amended).** For an all-file-backed acyclic graph with
*pairwise distinct targets*, bodies that write exactly their own
target and never fail, in-range roots, and a wall clock strictly ahead
of every recorded mtime: `run` succeeds, and an immediately following
second `run` (no external change in between: it starts from exactly
the filesystem and clock the first run left) executes zero bodies —
its body-call log is empty, every node's staleness check decides
"skip", each status records the resource's existing timestamp, and
the filesystem is untouched. -/
theorem c8_second_run_skips (env : Env) (g : Graph) (roots : List Nat) (fs0 : FS)
    (c0 : Nat) (hwf : WFG g) (hroots : ∀ r ∈ roots, r < g.tasks.length)
    (hg : AllFile g) (hinj : InjTargets g) (hw : WritesOwn env g) (hnf : NoFail env)
    (hfs : ∀ e ∈ fs0, e.2 < c0) (hc0 : 0 < c0)
    (hacyc : ¬ ReachCycle g roots) :
    ∃ sorted st1,
      topsort g roots (fuelBound g roots) = Except.ok sorted ∧
      run env g roots fs0 c0 = (st1, none) ∧
      run env g roots st1.fs st1.clock =
        (⟨sorted.map (fun u => ⟨u, statTime st1.fs (targetOf g u)⟩),
          st1.fs, st1.clock, []⟩, none) := by
  cases ht : topsort g roots (fuelBound g roots) with
  | error e =>
    cases e with
    | cyclic => exact absurd (topsort_cyclic ht) hacyc
    | fuel => exact absurd ht (topsort_no_fuel g roots hwf)
  | ok sorted =>
    obtain ⟨hnd, hdc, -⟩ := topsort_ok ht
    have hbound : ∀ t ∈ sorted, t < g.tasks.length := topsort_bound hwf hroots ht
    have hinv0 : RunInv g [] ⟨[], fs0, c0, []⟩ :=
      ⟨rfl, fun s hs => absurd hs (List.not_mem_nil s),
       fun s hs => absurd hs (List.not_mem_nil s),
       ⟨hc0, hfs, fun s hs => absurd hs (List.not_mem_nil s)⟩⟩
    obtain ⟨st1, hexec, hinv1⟩ := execList_runInv hg hinj hw hnf sorted []
      ⟨[], fs0, c0, []⟩ hinv0 (by rw [List.nil_append]; exact hnd)
      (by rw [List.nil_append]; exact hbound) (by rw [List.nil_append]; exact hdc)
    rw [List.nil_append] at hinv1
    have hrun1 : run env g roots fs0 c0 = (st1, none) := by
      unfold run
      rw [ht]
      exact hexec
    have hset : Settled g sorted st1.fs := runInv_settled hinv1
    have hskip := @execList_settled env g sorted st1.fs hg hbound hset sorted []
      ⟨[], st1.fs, st1.clock, []⟩ (fun x hx => hx) rfl rfl
    refine ⟨sorted, st1, rfl, hrun1, ?_⟩
    unfold run
    rw [ht]
    dsimp only
    rw [hskip]
    rw [Prod.mk.injEq, ExSt.mk.injEq]
    exact ⟨⟨List.nil_append _, rfl, rfl, rfl⟩, rfl⟩

/-- Witness for the amended C8: `gFiles` (distinct targets 0 and 1)
from filesystem `[(0, 10)]` (target 1 missing): run 1 rebuilds task 1,
run 2 skips everything. -/
theorem c8_witness :
    ∃ sorted st1,
      topsort gFiles [1] (fuelBound gFiles [1]) = Except.ok sorted ∧
      run envFiles gFiles [1] [(0, 10)] 100 = (st1, none) ∧
      run envFiles gFiles [1] st1.fs st1.clock =
        (⟨sorted.map (fun u => ⟨u, statTime st1.fs (targetOf gFiles u)⟩),
          st1.fs, st1.clock, []⟩, none) :=
  c8_second_run_skips envFiles gFiles [1] [(0, 10)] 100 (by decide) (by decide)
    (by decide) (by decide) (fun _ _ _ => rfl) (fun _ => rfl) (by decide) (by decide)
    (topsort_acyclic (show topsort gFiles [1] (fuelBound gFiles [1]) =
      Except.ok [0, 1] by decide))

/-- **C9 is violated by the code** (`code_bug`): a body failure kills
the watch loop.  With one always-failing plain task and two pending
change events, `watch` handles only the first event: the error raised
by the triggered `run` escapes the unguarded `await run(...tasks)` and
terminates the loop, the second event is never handled.  With
non-failing bodies the same loop handles both events.  The claim (and
spec §7, and the earlier `shake.ts` variant, which logs `Failed at …`
and keeps watching) requires the failure to be reported and the loop
to continue. -/
theorem c9_watch_dies :
    watch envFail7 gTwo [0] 2 [] 0 0 = (1, some (RunErr.raised 7)) ∧
    watch envPlain gTwo [0] 2 [] 0 0 = (2, none) := by
  refine ⟨by decide, by decide⟩

end Shake
